import Mathlib

/-!
Verification of the huak CLI layer (src/bin/huak/cli.rs).

The development shallowly embeds the pure core of the command dispatcher:
the per-command composition of option records (Fix, Lint, Fmt arms of
Cli::run), the add/remove/update dispatch to the operations layer, the
Dependency and PythonVersion FromStr implementations, and the shell
completion install/uninstall logic.  File mutations performed by the
completion manager are modelled as explicit action descriptions, and the
bash startup-file transformation is modelled directly on the file's byte
content (a list of characters), with Rust's str::replace embedded as
listReplace.
-/

namespace Huak

/-- Shell families recognized by clap_complete (clap_complete::Shell). -/
inductive Shell where
  | Bash
  | Elvish
  | Fish
  | PowerShell
  | Zsh
deriving DecidableEq

/-- Error kinds of the huak library that the CLI layer constructs
(huak::Error variants used in cli.rs). -/
inductive HuakError where
  | HuakConfigurationError (msg : String)
  | UnimplementedError (msg : String)
  | InternalError (msg : String)
  | IOError
  | EnvVarError
deriving DecidableEq

/-- CLI-level error: a huak error together with the process exit code,
mirroring crate::error::Error as built by Error::new(err, ExitCode::FAILURE);
ExitCode::FAILURE is modelled as 1. -/
structure Error where
  error : HuakError
  exitCode : Nat
deriving DecidableEq

/-- huak::LintOptions as populated by the Fix and Lint arms of Cli::run. -/
structure LintOptions where
  args : Option (List String)
  include_types : Bool
deriving DecidableEq

/-- huak::FormatOptions as populated by the Fmt arm of Cli::run. -/
structure FormatOptions where
  args : Option (List String)
deriving DecidableEq

/-- The Fix arm of Cli::run: build LintOptions from the trailing arguments
with include_types = false, then push "--fix" onto the argument list when
that list is present (if let Some(args) = options.args.as_mut()). -/
def cliRunFix (trailing : Option (List String)) : LintOptions :=
  let options : LintOptions := { args := trailing, include_types := false }
  match options.args with
  | some args => { options with args := some (args ++ ["--fix"]) }
  | none => options

/-- The Lint arm of Cli::run: build LintOptions from the trailing arguments
with include_types = !no_types, then, when the fix flag is set, push "--fix"
onto the argument list when that list is present. -/
def cliRunLint (fix no_types : Bool) (trailing : Option (List String)) :
    LintOptions :=
  let options : LintOptions := { args := trailing, include_types := !no_types }
  if fix then
    match options.args with
    | some args => { options with args := some (args ++ ["--fix"]) }
    | none => options
  else options

/-- The Fmt arm of Cli::run: build FormatOptions from the trailing
arguments, then, when the check flag is set, push "--check" onto the
argument list when present and otherwise set the list to ["--check"]. -/
def cliRunFmt (check : Bool) (trailing : Option (List String)) :
    FormatOptions :=
  let options : FormatOptions := { args := trailing }
  if check then
    match options.args with
    | some args => { options with args := some (args ++ ["--check"]) }
    | none => { options with args := some ["--check"] }
  else options

/-- Fuel-indexed worker for listReplace.  The fuel is always instantiated
with the length of the scanned list, which strictly bounds the number of
scanning steps, so the fuel-exhausted arm is never reached. -/
def listReplaceFuel (pat repl : List Char) : Nat → List Char → List Char
  | _, [] => []
  | 0, s => s
  | fuel + 1, c :: rest =>
    if pat.isPrefixOf (c :: rest) = true ∧ pat ≠ [] then
      repl ++ listReplaceFuel pat repl fuel ((c :: rest).drop pat.length)
    else
      c :: listReplaceFuel pat repl fuel rest

/-- Rust's str::replace(pat, repl) on byte content: scan left to right and
replace each non-overlapping occurrence of pat by repl, not rescanning the
replacement. -/
def listReplace (pat repl s : List Char) : List Char :=
  listReplaceFuel pat repl s.length s

/-- The Dependency newtype of cli.rs: a normalized dependency string. -/
structure Dependency where
  value : String
deriving DecidableEq

/-- Dependency's ToString impl: return the inner string. -/
def Dependency.toString (d : Dependency) : String := d.value

/-- The pure content of Dependency::from_str: s.replace('@', "=="). -/
def Dependency.ofStr (s : String) : Dependency :=
  { value := String.mk (listReplace ['@'] ['=', '='] s.data) }

/-- Dependency's FromStr impl: always Ok(Self(s.replace('@', "=="))). -/
def Dependency.fromStr (s : String) : Except Error Dependency :=
  .ok (Dependency.ofStr s)

/-- Specification-side restatement of dependency normalization, used only
to compare with the embedded code: split the input on the '@' separator and
rejoin the pieces with the exact-version comparator "==". -/
def replaceAtSpec (l : List Char) : List Char :=
  List.intercalate ['=', '='] (l.splitOn '@')

/-- The calls into the external operations layer (huak::ops) that the
dependency-mutating commands can dispatch to. -/
inductive OpCall where
  | addProjectDependencies (dependencies : List String)
  | addProjectOptionalDependencies (dependencies : List String) (group : String)
  | removeProjectDependencies (dependencies : List String)
  | removeProjectOptionalDependencies (dependencies : List String) (group : String)
  | updateProjectDependencies (dependencies : Option (List String))
  | updateProjectOptionalDependencies (dependencies : Option (List String)) (group : String)
deriving DecidableEq

/-- The add function of cli.rs: stringify the parsed dependencies and route
to the optional-group variant exactly when a group is given. -/
def add (dependencies : List Dependency) (group : Option String) : OpCall :=
  let deps := dependencies.map Dependency.toString
  match group with
  | some it => .addProjectOptionalDependencies deps it
  | none => .addProjectDependencies deps

/-- The remove function of cli.rs: route to the optional-group variant
exactly when a group is given. -/
def remove (dependencies : List String) (group : Option String) : OpCall :=
  match group with
  | some it => .removeProjectOptionalDependencies dependencies it
  | none => .removeProjectDependencies dependencies

/-- The update function of cli.rs: route to the optional-group variant
exactly when a group is given. -/
def update (dependencies : Option (List String)) (groups : Option String) :
    OpCall :=
  match groups with
  | some it => .updateProjectOptionalDependencies dependencies it
  | none => .updateProjectDependencies dependencies

/-- A parsed pep440 version as used by cli.rs: only the release segment
list (and epoch) are inspected by the CLI layer. -/
structure Pep440Version where
  epoch : Nat
  release : List Nat
deriving DecidableEq

/-- The PythonVersion newtype of cli.rs: a re-serialized version string. -/
structure PythonVersion where
  version : String
deriving DecidableEq

/-- PythonVersion's FromStr impl, parameterized by the external pep440_rs
parser (Version::from_str) and serializer (Version's Display): a parse
failure becomes an InternalError "failed to parse version"; a parsed
version with more than two release segments becomes an InternalError
"{s} is invalid, use major.minor"; otherwise the re-serialized version is
returned. -/
def pythonVersionFromStr (parse : String → Option Pep440Version)
    (versionToString : Pep440Version → String) (s : String) :
    Except Error PythonVersion :=
  match parse s with
  | none => .error { error := .InternalError "failed to parse version", exitCode := 1 }
  | some version =>
    if version.release.length > 2 then
      .error { error := .InternalError (s ++ " is invalid, use major.minor"), exitCode := 1 }
    else
      .ok { version := versionToString version }

/-- Concrete stand-in for the external pep440 parser, used to instantiate
the parameterized theorems on concrete inputs. -/
def parseW : String → Option Pep440Version := fun s =>
  if s = "3.10.4" then some { epoch := 0, release := [3, 10, 4] }
  else if s = "3.10" then some { epoch := 0, release := [3, 10] }
  else none

/-- Concrete stand-in for the external pep440 serializer, used to
instantiate the parameterized theorems on concrete inputs. -/
def versionToStringW : Pep440Version → String := fun _ => "3.10"

/-- The block appended to ~/.bashrc by add_completion_bash:
a leading newline, the eval line, and a trailing newline. -/
def bashBlockStr : String := "\neval \"$(huak config completion)\"\n"

/-- The eval line inside the bash block, without the surrounding
newlines. -/
def evalLine : List Char := "eval \"$(huak config completion)\"".data

/-- The bash block as byte content. -/
def bashBlock : List Char := bashBlockStr.data

/-- add_completion_bash's effect on the ~/.bashrc content: the file is
opened in append mode and the block is written at the end. -/
def installBash (content : List Char) : List Char := content ++ bashBlock

/-- remove_completion_bash's effect on the ~/.bashrc content: the whole
content is read and every occurrence of the block is replaced by the empty
string (file_content.replace(&block, "")). -/
def uninstallBash (content : List Char) : List Char :=
  listReplace bashBlock [] content

/-- Filesystem mutations attempted by the shell completion manager. -/
inductive FsAction where
  | append (path : String) (data : String)
  | write (path : String) (generatedFor : Shell)
  | rewriteReplacing (path : String) (pat : String) (repl : String)
  | removeFile (path : String)
deriving DecidableEq

/-- generate_target_file of cli.rs: create/truncate the target file and
write the clap-generated completion script into it.  The source hardcodes
Shell::Fish as the shell passed to clap_complete::generate. -/
def generateTargetFile (target : String) : Except HuakError (List FsAction) :=
  .ok [.write target Shell.Fish]

/-- add_completion_bash of cli.rs: resolve HOME (absence is a hard error)
and append the block to $HOME/.bashrc. -/
def addCompletionBash (home : Option String) :
    Except HuakError (List FsAction) :=
  match home with
  | none => .error .EnvVarError
  | some h => .ok [.append (h ++ "/.bashrc") bashBlockStr]

/-- add_completion_fish of cli.rs: resolve HOME and write the generated
script to $HOME/.config/fish/completions/huak.fish. -/
def addCompletionFish (home : Option String) :
    Except HuakError (List FsAction) :=
  match home with
  | none => .error .EnvVarError
  | some h => generateTargetFile (h ++ "/.config/fish/completions/huak.fish")

/-- add_completion_zsh of cli.rs: write the generated script to the fixed
system path /usr/local/share/zsh/site-functions/_huak. -/
def addCompletionZsh : Except HuakError (List FsAction) :=
  generateTargetFile "/usr/local/share/zsh/site-functions/_huak"

/-- remove_completion_bash of cli.rs: resolve HOME, read $HOME/.bashrc and
rewrite it with every occurrence of the block replaced by "". -/
def removeCompletionBash (home : Option String) :
    Except HuakError (List FsAction) :=
  match home with
  | none => .error .EnvVarError
  | some h => .ok [.rewriteReplacing (h ++ "/.bashrc") bashBlockStr ""]

/-- remove_completion_fish of cli.rs: resolve HOME and delete the fish
completion file. -/
def removeCompletionFish (home : Option String) :
    Except HuakError (List FsAction) :=
  match home with
  | none => .error .EnvVarError
  | some h => .ok [.removeFile (h ++ "/.config/fish/completions/huak.fish")]

/-- remove_completion_zsh of cli.rs: delete the zsh completion file at the
fixed system path. -/
def removeCompletionZsh : Except HuakError (List FsAction) :=
  .ok [.removeFile "/usr/local/share/zsh/site-functions/_huak"]

/-- run_with_install of cli.rs: a missing shell is a configuration error;
elvish and powershell are unimplemented; bash, fish and zsh dispatch to
their add_completion functions. -/
def runWithInstall (shell : Option Shell) (home : Option String) :
    Except HuakError (List FsAction) :=
  match shell with
  | none => .error (.HuakConfigurationError "no shell provided")
  | some sh =>
    match sh with
    | .Bash => addCompletionBash home
    | .Elvish => .error (.UnimplementedError "elvish completion")
    | .Fish => addCompletionFish home
    | .PowerShell => .error (.UnimplementedError "powershell completion")
    | .Zsh => addCompletionZsh

/-- run_with_uninstall of cli.rs: a missing shell is a configuration
error; elvish and powershell are unimplemented; bash, fish and zsh
dispatch to their remove_completion functions. -/
def runWithUninstall (shell : Option Shell) (home : Option String) :
    Except HuakError (List FsAction) :=
  match shell with
  | none => .error (.HuakConfigurationError "no shell provided")
  | some sh =>
    match sh with
    | .Bash => removeCompletionBash home
    | .Elvish => .error (.UnimplementedError "elvish completion")
    | .Fish => removeCompletionFish home
    | .PowerShell => .error (.UnimplementedError "Powershell completion")
    | .Zsh => removeCompletionZsh

/-- The Completion arm of Cli::run: requesting install or uninstall with
no shell named is a configuration error, checked before anything else;
otherwise install, then uninstall, are tried in order; with neither flag
the generated bash script is printed to stdout (no filesystem action). -/
def completionRun (shell : Option Shell) (install uninstall : Bool)
    (home : Option String) : Except HuakError (List FsAction) :=
  if ((install || uninstall) && shell.isNone) = true then
    .error (.HuakConfigurationError "no shell provided")
  else if install = true then
    runWithInstall shell home
  else if uninstall = true then
    runWithUninstall shell home
  else
    .ok []

/- ------------------------------------------------------------------ -/
/- Theorems                                                            -/
/- ------------------------------------------------------------------ -/

theorem listReplaceFuel_nil (pat repl : List Char) (fuel : Nat) :
    listReplaceFuel pat repl fuel [] = [] := by
  cases fuel <;> rfl

theorem listReplaceFuel_irrel (pat repl : List Char) :
    ∀ (fuelA : Nat) (s : List Char) (fuelB : Nat), s.length ≤ fuelA →
      s.length ≤ fuelB →
      listReplaceFuel pat repl fuelA s = listReplaceFuel pat repl fuelB s := by
  intro fuelA
  induction fuelA with
  | zero =>
    intro s fuelB hA _
    have hs : s = [] := List.length_eq_zero.mp (Nat.le_zero.mp hA)
    subst hs
    simp [listReplaceFuel_nil]
  | succ fA ih =>
    intro s fuelB hA hB
    cases s with
    | nil => simp [listReplaceFuel_nil]
    | cons c rest =>
      cases fuelB with
      | zero => exact absurd hB (by simp)
      | succ fB =>
        simp only [listReplaceFuel]
        by_cases h : pat.isPrefixOf (c :: rest) = true ∧ pat ≠ []
        · rw [if_pos h, if_pos h]
          have hpatlen : 0 < pat.length := List.length_pos.mpr h.2
          have hdrop : ((c :: rest).drop pat.length).length ≤ fA := by
            simp only [List.length_drop, List.length_cons]
            simp only [List.length_cons] at hA
            omega
          have hdropB : ((c :: rest).drop pat.length).length ≤ fB := by
            simp only [List.length_drop, List.length_cons]
            simp only [List.length_cons] at hB
            omega
          rw [ih _ fB hdrop hdropB]
        · rw [if_neg h, if_neg h]
          have hr : rest.length ≤ fA := by
            simp only [List.length_cons] at hA
            omega
          have hrB : rest.length ≤ fB := by
            simp only [List.length_cons] at hB
            omega
          rw [ih _ fB hr hrB]

theorem listReplace_nil_input (pat repl : List Char) :
    listReplace pat repl [] = [] := rfl

theorem listReplace_cons (pat repl : List Char) (c : Char)
    (rest : List Char) :
    listReplace pat repl (c :: rest) =
      if pat.isPrefixOf (c :: rest) = true ∧ pat ≠ [] then
        repl ++ listReplace pat repl ((c :: rest).drop pat.length)
      else
        c :: listReplace pat repl rest := by
  show listReplaceFuel pat repl (rest.length + 1) (c :: rest) = _
  simp only [listReplaceFuel]
  by_cases h : pat.isPrefixOf (c :: rest) = true ∧ pat ≠ []
  · rw [if_pos h, if_pos h]
    have hpatlen : 0 < pat.length := List.length_pos.mpr h.2
    have hlen : ((c :: rest).drop pat.length).length ≤ rest.length := by
      simp only [List.length_drop, List.length_cons]
      omega
    rw [listReplaceFuel_irrel pat repl rest.length _
      ((c :: rest).drop pat.length).length hlen (Nat.le_refl _)]
    rfl
  · rw [if_neg h, if_neg h]
    rfl

theorem listReplace_pos (pat repl : List Char) (c : Char) (rest : List Char)
    (h1 : pat.isPrefixOf (c :: rest) = true) (h2 : pat ≠ []) :
    listReplace pat repl (c :: rest) =
      repl ++ listReplace pat repl ((c :: rest).drop pat.length) := by
  rw [listReplace_cons, if_pos ⟨h1, h2⟩]

theorem listReplace_neg (pat repl : List Char) (c : Char) (rest : List Char)
    (h : ¬ pat.isPrefixOf (c :: rest) = true) :
    listReplace pat repl (c :: rest) = c :: listReplace pat repl rest := by
  rw [listReplace_cons, if_neg (fun hand => h hand.1)]

theorem bashBlock_shape : bashBlock = '\n' :: (evalLine ++ ['\n']) := by
  decide

theorem newline_not_mem_evalLine : '\n' ∉ evalLine := by decide

theorem no_early_block_occurrence (c : Char) (l : List Char)
    (hno : ¬ evalLine <:+: (c :: l)) :
    ¬ bashBlock <+: ((c :: l) ++ bashBlock) := by
  rw [bashBlock_shape]
  intro hpre
  obtain ⟨t, ht⟩ := hpre
  simp only [List.cons_append, List.append_assoc, List.nil_append,
    List.singleton_append] at ht
  injection ht with hc hEq
  by_cases hlen : evalLine.length ≤ l.length
  · have h1 : evalLine <+: l ++ ('\n' :: (evalLine ++ ['\n'])) := by
      refine ⟨'\n' :: t, ?_⟩
      rw [hEq]
    have h2 : l <+: l ++ ('\n' :: (evalLine ++ ['\n'])) :=
      List.prefix_append l _
    have h3 : evalLine <+: l := List.prefix_of_prefix_length_le h1 h2 hlen
    exact hno (List.infix_cons h3.isInfix)
  · push_neg at hlen
    have h1 : evalLine <+: l ++ ('\n' :: (evalLine ++ ['\n'])) := by
      refine ⟨'\n' :: t, ?_⟩
      rw [hEq]
    have h2 : l <+: l ++ ('\n' :: (evalLine ++ ['\n'])) :=
      List.prefix_append l _
    have h3 : l <+: evalLine :=
      List.prefix_of_prefix_length_le h2 h1 (Nat.le_of_lt hlen)
    obtain ⟨m, hm⟩ := h3
    have hmne : m ≠ [] := by
      intro hmnil
      rw [hmnil, List.append_nil] at hm
      rw [hm] at hlen
      exact Nat.lt_irrefl _ hlen
    have hEq3 : l ++ (m ++ '\n' :: t) = l ++ ('\n' :: (evalLine ++ ['\n'])) := by
      rw [← List.append_assoc, hm, hEq]
    have hEq2 : m ++ '\n' :: t = '\n' :: (evalLine ++ ['\n']) :=
      List.append_cancel_left hEq3
    cases m with
    | nil => exact hmne rfl
    | cons m0 mrest =>
      rw [List.cons_append] at hEq2
      injection hEq2 with hm0 hmrest
      have : '\n' ∈ evalLine := by
        rw [← hm, hm0]
        exact List.mem_append_right l (List.mem_cons_self _ _)
      exact newline_not_mem_evalLine this

/-- C3 (amended): for every prior byte content of the bash startup file in
which the eval line does not occur as a substring, the bash append-style
completion install followed immediately by the bash uninstall restores
exactly the pre-install byte content. -/
theorem bash_install_uninstall_roundtrip (s : List Char)
    (h : ¬ evalLine <:+: s) :
    uninstallBash (installBash s) = s := by
  induction s with
  | nil => decide
  | cons c rest ih =>
    show listReplace bashBlock [] ((c :: rest) ++ bashBlock) = c :: rest
    have hnp : ¬ bashBlock.isPrefixOf ((c :: rest) ++ bashBlock) = true := by
      intro hb
      have hb2 : bashBlock <+: ((c :: rest) ++ bashBlock) :=
        List.isPrefixOf_iff_prefix.mp hb
      exact no_early_block_occurrence c rest h hb2
    rw [List.cons_append, listReplace_neg _ _ _ _ (by
      rw [List.cons_append] at hnp
      exact hnp)]
    have hrest : ¬ evalLine <:+: rest := fun hi => h (List.infix_cons hi)
    have := ih hrest
    simp only [uninstallBash, installBash] at this
    rw [this]

/-- C3 witness: the round trip restores the empty prior content, in which
the eval line certainly does not occur. -/
theorem bash_install_uninstall_roundtrip_witness :
    ¬ evalLine <:+: ([] : List Char) ∧
      uninstallBash (installBash []) = [] := by
  have h : ¬ evalLine <:+: ([] : List Char) := by decide
  exact ⟨h, bash_install_uninstall_roundtrip [] h⟩

/-- C3 counterexample: when the prior content already equals the block,
uninstall removes both copies, so install-then-uninstall does not restore
the prior content. -/
theorem bash_install_uninstall_not_inverse_on_block :
    uninstallBash (installBash bashBlock) ≠ bashBlock := by
  decide

/-- C1: composing the Fix arm, or the Lint arm with the fix flag set,
appends "--fix" after the trailing arguments only when a trailing list is
present; with no trailing arguments the argument list stays absent and no
"--fix" is passed, so the claimed unconditional append fails. -/
theorem fix_flag_dropped_without_trailing :
    (cliRunFix none).args = none ∧
      (cliRunLint true false none).args = none ∧
      (∀ t, (cliRunFix (some t)).args = some (t ++ ["--fix"])) ∧
      (∀ no_types t,
        (cliRunLint true no_types (some t)).args = some (t ++ ["--fix"])) := by
  refine ⟨rfl, rfl, fun t => rfl, fun no_types t => rfl⟩

/-- C2: composing the Fmt arm with the check flag set yields exactly
["--check"] when the trailing list is absent, and the trailing arguments
followed by "--check" when it is present; in particular trailing ["-x"]
yields ["-x", "--check"]. -/
theorem fmt_check_composition :
    (cliRunFmt true none).args = some ["--check"] ∧
      (∀ l, (cliRunFmt true (some l)).args = some (l ++ ["--check"])) ∧
      (cliRunFmt true (some ["-x"])).args = some ["-x", "--check"] := by
  refine ⟨rfl, fun l => rfl, rfl⟩

/-- C4: PythonVersion::from_str, for any behavior of the external pep440
parser and serializer: a string that does not parse yields the parse
error; a parsed version with at most two release segments yields the
re-serialized version; a parsed version with three or more release
segments yields the granularity error whose message starts with the
original token. -/
theorem pythonVersionFromStr_spec (parse : String → Option Pep440Version)
    (versionToString : Pep440Version → String) (s : String) :
    (parse s = none →
      pythonVersionFromStr parse versionToString s =
        .error { error := .InternalError "failed to parse version", exitCode := 1 }) ∧
    (∀ v, parse s = some v → v.release.length ≤ 2 →
      pythonVersionFromStr parse versionToString s =
        .ok { version := versionToString v }) ∧
    (∀ v, parse s = some v → 2 < v.release.length →
      pythonVersionFromStr parse versionToString s =
        .error { error := .InternalError (s ++ " is invalid, use major.minor"),
                 exitCode := 1 } ∧
      s.data <+: (s ++ " is invalid, use major.minor").data) := by
  refine ⟨?_, ?_, ?_⟩
  · intro hnone
    simp [pythonVersionFromStr, hnone]
  · intro v hv hle
    simp [pythonVersionFromStr, hv, Nat.not_lt.mpr hle]
  · intro v hv hgt
    constructor
    · simp [pythonVersionFromStr, hv, hgt]
    · rw [String.data_append]
      exact List.prefix_append _ _

/-- C4 witness: with a concrete parser, "3.10.4" (three release segments)
fails with the granularity error naming the token, and "3.10" succeeds
with the re-serialized form. -/
theorem pythonVersionFromStr_spec_witness :
    parseW "3.10.4" = some { epoch := 0, release := [3, 10, 4] } ∧
      (2 : Nat) < 3 ∧
      pythonVersionFromStr parseW versionToStringW "3.10.4" =
        .error { error := .InternalError ("3.10.4" ++ " is invalid, use major.minor"),
                 exitCode := 1 } ∧
      pythonVersionFromStr parseW versionToStringW "3.10" =
        .ok { version := versionToStringW { epoch := 0, release := [3, 10] } } := by
  refine ⟨by decide, by decide, ?_, ?_⟩
  · exact ((pythonVersionFromStr_spec parseW versionToStringW "3.10.4").2.2
      { epoch := 0, release := [3, 10, 4] } (by decide) (by decide)).1
  · exact (pythonVersionFromStr_spec parseW versionToStringW "3.10").2.1
      { epoch := 0, release := [3, 10] } (by decide) (by decide)

/-- C5: installing zsh completion writes to the fixed system path, but the
script written there is generated for Shell::Fish, not for zsh, because
generate_target_file hardcodes Shell::Fish. -/
theorem addCompletionZsh_writes_fish_script :
    addCompletionZsh =
      .ok [.write "/usr/local/share/zsh/site-functions/_huak" Shell.Fish] ∧
      Shell.Fish ≠ Shell.Zsh := by
  exact ⟨rfl, by decide⟩

/-- C8: requesting completion install or uninstall with no shell named
fails with the configuration error, with no filesystem action emitted. -/
theorem completion_no_shell_config_error (install uninstall : Bool)
    (home : Option String) (h : (install || uninstall) = true) :
    completionRun none install uninstall home =
      .error (.HuakConfigurationError "no shell provided") := by
  simp [completionRun, h]

/-- C8 witness: completion --install with no shell fails with the
configuration error. -/
theorem completion_no_shell_config_error_witness :
    (true || false) = true ∧
      completionRun none true false none =
        .error (.HuakConfigurationError "no shell provided") :=
  ⟨rfl, completion_no_shell_config_error true false none rfl⟩

/-- C9: for elvish and powershell, both completion install and uninstall
return an UnimplementedError, emitting no filesystem action, whatever the
home directory resolves to. -/
theorem unsupported_shells_unimplemented (home : Option String) :
    runWithInstall (some Shell.Elvish) home =
        .error (.UnimplementedError "elvish completion") ∧
      runWithInstall (some Shell.PowerShell) home =
        .error (.UnimplementedError "powershell completion") ∧
      runWithUninstall (some Shell.Elvish) home =
        .error (.UnimplementedError "elvish completion") ∧
      runWithUninstall (some Shell.PowerShell) home =
        .error (.UnimplementedError "Powershell completion") :=
  ⟨rfl, rfl, rfl, rfl⟩

/-- C10: the Fix arm always sets include_types to false, while the Lint
arm sets it to the negation of the explicit opt-out flag, hence true by
default. -/
theorem fix_lint_include_types :
    (∀ trailing, (cliRunFix trailing).include_types = false) ∧
      (∀ fix no_types trailing,
        (cliRunLint fix no_types trailing).include_types = !no_types) := by
  constructor
  · intro trailing
    cases trailing <;> rfl
  · intro fix no_types trailing
    cases fix <;> cases trailing <;> rfl

theorem listReplace_at_hit (r l : List Char) :
    listReplace ['@'] r ('@' :: l) = r ++ listReplace ['@'] r l := by
  have h1 : (['@'] : List Char).isPrefixOf ('@' :: l) = true := by
    simp [List.isPrefixOf]
  rw [listReplace_pos _ _ _ _ h1 (by simp)]
  simp

theorem listReplace_at_miss (r : List Char) (c : Char) (l : List Char)
    (h : c ≠ '@') :
    listReplace ['@'] r (c :: l) = c :: listReplace ['@'] r l := by
  apply listReplace_neg
  simp only [List.isPrefixOf, Bool.and_eq_true, beq_iff_eq]
  intro hand
  exact h hand.1.symm

theorem intercalate_nil_cons (sep h : List Char) (t : List (List Char)) :
    List.intercalate sep ([] :: h :: t) = sep ++ List.intercalate sep (h :: t) := by
  simp [List.intercalate, List.intersperse_cons_cons]

theorem intercalate_modifyHead_cons (sep : List Char) (a : Char) :
    ∀ (L : List (List Char)), L ≠ [] →
      List.intercalate sep (L.modifyHead (List.cons a)) =
        a :: List.intercalate sep L
  | [], h => absurd rfl h
  | [hd], _ => by simp [List.intercalate, List.modifyHead]
  | hd :: hd2 :: tl, _ => by
      simp [List.intercalate, List.modifyHead, List.intersperse_cons_cons]

theorem listReplace_at_eq_spec (l : List Char) :
    listReplace ['@'] ['=', '='] l = replaceAtSpec l := by
  induction l with
  | nil => rfl
  | cons c rest ih =>
    simp only [replaceAtSpec, List.splitOn] at ih ⊢
    rw [List.splitOnP_cons]
    by_cases hc : c = '@'
    · subst hc
      rw [listReplace_at_hit, if_pos (by simp)]
      cases hsp : rest.splitOnP (fun x => x == '@') with
      | nil => exact absurd hsp (List.splitOnP_ne_nil _ rest)
      | cons h2 t2 =>
        rw [intercalate_nil_cons]
        rw [ih, hsp]
    · rw [listReplace_at_miss _ _ _ hc, if_neg (by simp [hc])]
      cases hsp : rest.splitOnP (fun x => x == '@') with
      | nil => exact absurd hsp (List.splitOnP_ne_nil _ rest)
      | cons h2 t2 =>
        rw [hsp] at ih
        rw [intercalate_modifyHead_cons _ _ _ (by simp), ih]

theorem at_not_mem_listReplace (l : List Char) :
    '@' ∉ listReplace ['@'] ['=', '='] l := by
  induction l with
  | nil => simp [listReplace_nil_input]
  | cons c rest ih =>
    by_cases hc : c = '@'
    · subst hc
      rw [listReplace_at_hit]
      intro hmem
      rcases List.mem_append.mp hmem with h1 | h2
      · simp at h1
      · exact ih h2
    · rw [listReplace_at_miss _ _ _ hc]
      intro hmem
      rcases List.mem_cons.mp hmem with h1 | h2
      · exact hc h1.symm
      · exact ih h2

theorem listReplace_at_id_of_not_mem (l : List Char) (h : '@' ∉ l) :
    listReplace ['@'] ['=', '='] l = l := by
  induction l with
  | nil => rfl
  | cons c rest ih =>
    have hc : c ≠ '@' := fun hcc => h (hcc ▸ List.mem_cons_self c rest)
    rw [listReplace_at_miss _ _ _ hc,
      ih (fun hm => h (List.mem_cons_of_mem c hm))]

/-- C6: dependency normalization never fails; its result is exactly the
input with every occurrence of '@' replaced by "==" (stated independently
as split-on-'@' rejoined with "=="); the output never contains '@', and
normalizing the output returns it unchanged. -/
theorem dependency_normalization_spec (s : String) :
    Dependency.fromStr s = .ok (Dependency.ofStr s) ∧
      (Dependency.ofStr s).value.data = replaceAtSpec s.data ∧
      '@' ∉ (Dependency.ofStr s).value.data ∧
      Dependency.ofStr ((Dependency.ofStr s).toString) = Dependency.ofStr s := by
  refine ⟨rfl, listReplace_at_eq_spec s.data, at_not_mem_listReplace s.data, ?_⟩
  show ({ value := String.mk (listReplace ['@'] ['=', '=']
    (listReplace ['@'] ['=', '='] s.data)) } : Dependency) = _
  rw [listReplace_at_id_of_not_mem _ (at_not_mem_listReplace s.data)]
  rfl

/-- C7: add, remove and update each dispatch to exactly one
operations-layer variant: the optional-group variant when a group name is
supplied, the primary variant when it is absent; in particular
add requests@2.28 --group dev dispatches the optional-group variant with
dependency list ["requests==2.28"] and group name "dev". -/
theorem add_remove_update_dispatch :
    (∀ ds g, add ds (some g) =
      .addProjectOptionalDependencies (ds.map Dependency.toString) g) ∧
      (∀ ds, add ds none =
        .addProjectDependencies (ds.map Dependency.toString)) ∧
      (∀ ds g, remove ds (some g) = .removeProjectOptionalDependencies ds g) ∧
      (∀ ds, remove ds none = .removeProjectDependencies ds) ∧
      (∀ ds g, update ds (some g) = .updateProjectOptionalDependencies ds g) ∧
      (∀ ds, update ds none = .updateProjectDependencies ds) ∧
      add [Dependency.ofStr "requests@2.28"] (some "dev") =
        .addProjectOptionalDependencies ["requests==2.28"] "dev" := by
  refine ⟨fun ds g => rfl, fun ds => rfl, fun ds g => rfl, fun ds => rfl,
    fun ds g => rfl, fun ds => rfl, ?_⟩
  decide
